import Mathlib

/-!
Verification of the `EnumTypeComposer` class from `src/enumTypeComposer.js`.

Modelling conventions:
* A JavaScript object with string keys is modelled as an association list
  `List (String × α)` kept in insertion order; an absent key is `none`.
  `objInsert` models property assignment (replace in place when the key is
  present, append otherwise), `objSpread` models the object spread
  `\x7b ...a, ...b \x7d`, `objDelete` models the `delete` operator and
  `objKeys` models `Object.keys`.
* An enum value config is a record whose `Option` fields model possibly
  absent object properties.
* The backing `GraphQLEnumType` instance comes from the external `graphql`
  package and is not part of the repository sources; its read view
  `_getNameLookup` is modelled from the spec: the read view computes the
  deprecation display marker from `deprecationReason` presence and is cached
  lazily in `_nameLookup`, which mutators delete to force a recompute.
* Throwing methods return `Except String` carrying the thrown message;
  `deprecateFields`, which mutates the composer before it can throw, returns
  the state reached at the moment of the throw together with the optional
  thrown message.
-/

set_option maxHeartbeats 1000000

/-- Property lookup `m[k]` on a JS object: first binding of the key wins. -/
def objGet {α : Type} (m : List (String × α)) (k : String) : Option α :=
  match m with
  | [] => none
  | (k1, v) :: rest => if k1 = k then some v else objGet rest k

/-- Key-presence test (`k in m`, or truthiness of `m[k]` for object values). -/
def objHasKey {α : Type} (m : List (String × α)) (k : String) : Bool :=
  (objGet m k).isSome

/-- `Object.keys m` in insertion order. -/
def objKeys {α : Type} (m : List (String × α)) : List String :=
  m.map Prod.fst

/-- Overwrite the value stored under `k`, keeping the key position. -/
def objReplace {α : Type} (m : List (String × α)) (k : String) (v : α) :
    List (String × α) :=
  match m with
  | [] => []
  | (k1, w) :: rest =>
      if k1 = k then (k, v) :: objReplace rest k v
      else (k1, w) :: objReplace rest k v

/-- Property assignment `m[k] = v`: replace in place when present, else append. -/
def objInsert {α : Type} (m : List (String × α)) (k : String) (v : α) :
    List (String × α) :=
  if (objGet m k).isSome then objReplace m k v
  else m ++ [(k, v)]

/-- Object spread `\x7b ...m, ...n \x7d`: copy `m`, then assign each binding of `n`. -/
def objSpread {α : Type} (m n : List (String × α)) : List (String × α) :=
  n.foldl (fun acc kv => objInsert acc kv.1 kv.2) m

/-- The `delete m[k]` operator. -/
def objDelete {α : Type} (m : List (String × α)) (k : String) :
    List (String × α) :=
  match m with
  | [] => []
  | (k1, v) :: rest => if k1 = k then objDelete rest k else (k1, v) :: objDelete rest k

/-- Apply `f` to every value of the object, keeping keys and order. -/
def objMapVals {α β : Type} (f : α → β) (m : List (String × α)) :
    List (String × β) :=
  m.map (fun kv => (kv.1, f kv.2))

/-- Left-biased choice on options, modelling `x !== undefined ? x : y`. -/
def oOr {α : Type} (x y : Option α) : Option α :=
  match x with
  | some v => some v
  | none => y

/-- A `GraphQLEnumValueConfig` object (also used for the read-view value
objects): `none` models an absent property. -/
structure EnumValueConfig where
  value : Option String := none
  description : Option String := none
  deprecationReason : Option String := none
  isDeprecated : Option Bool := none
deriving DecidableEq, Repr

/-- A name-to-value-config map (`GraphQLEnumValueConfigMap`). -/
abbrev EnumValueConfigMap := List (String × EnumValueConfig)

/-- Shallow object merge `\x7b ...prev, ...patch \x7d` on value configs:
present properties of `patch` win. -/
def shallowMerge (prev patch : EnumValueConfig) : EnumValueConfig :=
  { value := oOr patch.value prev.value
    description := oOr patch.description prev.description
    deprecationReason := oOr patch.deprecationReason prev.deprecationReason
    isDeprecated := oOr patch.isDeprecated prev.isDeprecated }

/-- The `_enumConfig` object of a `GraphQLEnumType`. -/
structure GraphQLEnumTypeConfig where
  name : String
  description : Option String := none
  values : EnumValueConfigMap := []
deriving DecidableEq, Repr

/-- Modelled from the spec: the mutable state of the backing `GraphQLEnumType`
instance (external `graphql` package, not in the repository sources), reduced
to the properties the composer reads and writes: `name`, `description`, the
retained constructor config `_enumConfig`, and the lazily cached derived
name-lookup table `_nameLookup` (the composer deletes it to invalidate). -/
structure GraphQLEnumType where
  name : String
  description : Option String := none
  enumConfig : GraphQLEnumTypeConfig
  nameLookup : Option EnumValueConfigMap := none
deriving DecidableEq, Repr

/-- Modelled from the spec: the `GraphQLEnumType` constructor retains the
config and exposes its name and description; derived caches start empty. -/
def mkGraphQLEnumType (config : GraphQLEnumTypeConfig) : GraphQLEnumType :=
  { name := config.name
    description := config.description
    enumConfig := config
    nameLookup := none }

/-- Modelled from the spec: the read view computes the deprecation
display-state marker from `deprecationReason` presence. -/
def deriveValue (c : EnumValueConfig) : EnumValueConfig :=
  { c with isDeprecated := some c.deprecationReason.isSome }

/-- Modelled from the spec: the derived name-lookup table built from the
stored value-config map, one derived value object per stored entry. -/
def buildNameLookup (values : EnumValueConfigMap) : EnumValueConfigMap :=
  objMapVals deriveValue values

/-- Modelled from the spec: `_getNameLookup` returns the cached table when
present and otherwise recomputes it from `_enumConfig.values`. -/
def GraphQLEnumType.getNameLookup (t : GraphQLEnumType) : EnumValueConfigMap :=
  match t.nameLookup with
  | some l => l
  | none => buildNameLookup t.enumConfig.values

/-- The composer wraps a backing `GraphQLEnumType` (`this.gqType`). -/
structure EnumTypeComposer where
  gqType : GraphQLEnumType
deriving DecidableEq, Repr

/-- Removing the `isDeprecated` property from a value config
(`delete values[key].isDeprecated`). -/
def stripIsDeprecated (c : EnumValueConfig) : EnumValueConfig :=
  { c with isDeprecated := none }

/-- Argument shape `string | Array<string>`. -/
inductive NameOrNames where
  | one (name : String)
  | many (names : List String)

/-- The `Array.isArray(x) ? x : [x]` normalization. -/
def NameOrNames.toList : NameOrNames → List String
  | .one name => [name]
  | .many names => names

/-- Argument shape of `deprecateFields`:
a single name, an array of names, or a name-to-reason object. -/
inductive DeprecateArg where
  | one (name : String)
  | many (names : List String)
  | table (m : List (String × String))

namespace EnumTypeComposer

/-- `getFields()` returns `this.gqType._getNameLookup()`. -/
def getFields (etc : EnumTypeComposer) : EnumValueConfigMap :=
  etc.gqType.getNameLookup

/-- `hasField(name)` tests truthiness of `values[name]`. -/
def hasField (etc : EnumTypeComposer) (name : String) : Bool :=
  objHasKey (getFields etc) name

/-- `getTypeName()` returns `this.gqType.name`. -/
def getTypeName (etc : EnumTypeComposer) : String :=
  etc.gqType.name

/-- `getDescription()` returns `this.gqType.description || ""`. -/
def getDescription (etc : EnumTypeComposer) : String :=
  etc.gqType.description.getD ""

/-- `getField(name)` returns the value config or throws. -/
def getField (etc : EnumTypeComposer) (name : String) :
    Except String EnumValueConfig :=
  match objGet (getFields etc) name with
  | some v => .ok v
  | none =>
      .error ("Cannot get value \x27" ++ name ++ "\x27 from enum type \x27" ++
        getTypeName etc ++ "\x27. Value with such name does not exist.")

/-- `getFieldNames()` returns `Object.keys(this.getFields())`. -/
def getFieldNames (etc : EnumTypeComposer) : List String :=
  objKeys (getFields etc)

/-- `setFields(values)`: delete `isDeprecated` from every value config of the
argument in place, install the argument as `_enumConfig.values`, delete the
derived caches. The second component is the argument object as the caller
observes it after the call. -/
def setFieldsFull (etc : EnumTypeComposer) (values : EnumValueConfigMap) :
    EnumTypeComposer × EnumValueConfigMap :=
  let stripped := objMapVals stripIsDeprecated values
  (⟨{ etc.gqType with
      enumConfig := { etc.gqType.enumConfig with values := stripped }
      nameLookup := none }⟩, stripped)

/-- `setFields(values)`, composer result only. -/
def setFields (etc : EnumTypeComposer) (values : EnumValueConfigMap) :
    EnumTypeComposer :=
  (setFieldsFull etc values).1

/-- `addFields(newValues)` is `setFields(\x7b ...this.getFields(), ...newValues \x7d)`. -/
def addFields (etc : EnumTypeComposer) (newValues : EnumValueConfigMap) :
    EnumTypeComposer :=
  setFields etc (objSpread (getFields etc) newValues)

/-- `setField(name, valueConfig)` is `addFields(\x7b [name]: valueConfig \x7d)`. -/
def setField (etc : EnumTypeComposer) (name : String)
    (valueConfig : EnumValueConfig) : EnumTypeComposer :=
  addFields etc [(name, valueConfig)]

/-- `removeField(nameOrArray)`: delete each given key from the field map,
then `setFields(\x7b ...values \x7d)`. -/
def removeField (etc : EnumTypeComposer) (nameOrArray : NameOrNames) :
    EnumTypeComposer :=
  let valueNames := nameOrArray.toList
  let values := valueNames.foldl objDelete (getFields etc)
  setFields etc (objSpread [] values)

/-- One iteration of the `reorderFields` loop: when the working copy still
has the name, move its config into the ordered map and delete it from the
working copy; otherwise skip the name. -/
def reorderStep (acc : EnumValueConfigMap × EnumValueConfigMap) (name : String) :
    EnumValueConfigMap × EnumValueConfigMap :=
  match objGet acc.2 name with
  | some v => (objInsert acc.1 name v, objDelete acc.2 name)
  | none => acc

/-- `reorderFields(names)`: move each named present field, in argument order,
into a fresh map while deleting it from the working copy, then install the
moved fields followed by the remaining ones. -/
def reorderFields (etc : EnumTypeComposer) (names : List String) :
    EnumTypeComposer :=
  let r := names.foldl reorderStep ([], getFields etc)
  setFields etc (objSpread r.1 r.2)

/-- `extendField(name, partialValueConfig)`: rethrow a not-found failure of
`getField`, otherwise shallow-merge the patch over the previous config and
write the result back through `setField`. -/
def extendField (etc : EnumTypeComposer) (name : String)
    (patch : EnumValueConfig) : Except String EnumTypeComposer :=
  match getField etc name with
  | .error _ =>
      .error ("Cannot extend value \x27" ++ name ++ "\x27 from enum \x27" ++
        getTypeName etc ++ "\x27. Value does not exist.")
  | .ok prevValueConfig =>
      .ok (setField etc name (shallowMerge prevValueConfig patch))

/-- `setTypeName(name)` writes `this.gqType.name` and `this.gqType._enumConfig.name`. -/
def setTypeName (etc : EnumTypeComposer) (name : String) : EnumTypeComposer :=
  ⟨{ etc.gqType with
      name := name
      enumConfig := { etc.gqType.enumConfig with name := name } }⟩

/-- `setDescription(description)` writes `this.gqType.description` and
`this.gqType._enumConfig.description`. -/
def setDescription (etc : EnumTypeComposer) (description : String) :
    EnumTypeComposer :=
  ⟨{ etc.gqType with
      description := some description
      enumConfig := { etc.gqType.enumConfig with description := some description } }⟩

/-- The message thrown for deprecating an absent value. -/
def cannotDeprecateMsg (field typeName : String) : String :=
  "Cannot deprecate unexisted value \x27" ++ field ++ "\x27 from enum \x27" ++
    typeName ++ "\x27"

/-- One iteration of `deprecateFields`: skipped when an exception is already
propagating; otherwise check the name against the snapshot of existing field
names and either extend the field with the reason or throw. -/
def deprecateOne (existed : List String) (acc : EnumTypeComposer × Option String)
    (name : String) (reason : String) : EnumTypeComposer × Option String :=
  match acc.2 with
  | some _ => acc
  | none =>
      if existed.contains name then
        match extendField acc.1 name { deprecationReason := some reason } with
        | .ok e => (e, none)
        | .error msg => (acc.1, some msg)
      else (acc.1, some (cannotDeprecateMsg name (getTypeName acc.1)))

/-- `deprecateFields(fields)`: snapshot the existing field names, then apply
the fixed reason "deprecated" (string and array forms) or the caller-supplied
reason (object form) name by name, throwing on the first absent name. The
second component is the thrown message, if any; the first is the composer
state at return or at the moment of the throw. -/
def deprecateFields (etc : EnumTypeComposer) (arg : DeprecateArg) :
    EnumTypeComposer × Option String :=
  let existed := getFieldNames etc
  match arg with
  | .one name => deprecateOne existed (etc, none) name "deprecated"
  | .many names =>
      names.foldl (fun acc n => deprecateOne existed acc n "deprecated") (etc, none)
  | .table m =>
      m.foldl (fun acc kv => deprecateOne existed acc kv.1 kv.2) (etc, none)

/-- `clone(newTypeName)`: throw on an empty name; otherwise rebuild the value
map from shallow copies with `isDeprecated` deleted, construct a fresh backing
type under the new name, and copy the description over. -/
def clone (etc : EnumTypeComposer) (newTypeName : String) :
    Except String EnumTypeComposer :=
  if newTypeName = "" then
    .error "You should provide newTypeName:string for EnumTypeComposer.clone()"
  else
    let values := getFields etc
    let newValues := objMapVals stripIsDeprecated values
    let cloned : EnumTypeComposer :=
      ⟨mkGraphQLEnumType { name := newTypeName, values := newValues }⟩
    .ok (setDescription cloned (getDescription etc))

/-- Well-formedness of a reachable composer state: the stored value map has
no duplicate keys (it is a JS object) and the cached lookup table, when
present, is the one derived from the stored map. -/
def WF (etc : EnumTypeComposer) : Prop :=
  (objKeys etc.gqType.enumConfig.values).Nodup ∧
  (etc.gqType.nameLookup = none ∨
    etc.gqType.nameLookup = some (buildNameLookup etc.gqType.enumConfig.values))

instance (etc : EnumTypeComposer) : Decidable (WF etc) := by
  unfold WF; infer_instance

end EnumTypeComposer

section ObjLemmas

variable {α β : Type}

@[simp] theorem oOr_none_right (x : Option α) : oOr x none = x := by
  cases x <;> rfl

@[simp] theorem oOr_some (v : α) (y : Option α) : oOr (some v) y = some v := rfl

@[simp] theorem oOr_none_left (y : Option α) : oOr none y = y := rfl

@[simp] theorem objGet_nil (k : String) :
    objGet ([] : List (String × α)) k = none := rfl

theorem objGet_cons (k1 k : String) (v : α) (m : List (String × α)) :
    objGet ((k1, v) :: m) k = if k1 = k then some v else objGet m k := rfl

@[simp] theorem objKeys_nil : objKeys ([] : List (String × α)) = [] := rfl

@[simp] theorem objKeys_cons (k : String) (v : α) (m : List (String × α)) :
    objKeys ((k, v) :: m) = k :: objKeys m := rfl

theorem objKeys_append (m n : List (String × α)) :
    objKeys (m ++ n) = objKeys m ++ objKeys n := by
  simp [objKeys]

theorem objGet_isSome_iff_mem (m : List (String × α)) (k : String) :
    (objGet m k).isSome = true ↔ k ∈ objKeys m := by
  induction m with
  | nil => simp
  | cons a m ih =>
      obtain ⟨k1, v⟩ := a
      by_cases h : k1 = k
      · subst h; simp [objGet_cons]
      · have h2 : ¬ k = k1 := fun hh => h hh.symm
        rw [objGet_cons, if_neg h, objKeys_cons, List.mem_cons]
        simp [h2, ih]

theorem objGet_eq_none_of_not_mem {m : List (String × α)} {k : String}
    (h : k ∉ objKeys m) : objGet m k = none := by
  cases h1 : objGet m k with
  | none => rfl
  | some v =>
      exact absurd ((objGet_isSome_iff_mem m k).mp (by simp [h1])) h

theorem objGet_append (m n : List (String × α)) (k : String) :
    objGet (m ++ n) k = oOr (objGet m k) (objGet n k) := by
  induction m with
  | nil => simp
  | cons a m ih =>
      obtain ⟨k1, v⟩ := a
      by_cases h : k1 = k
      · simp [objGet_cons, h]
      · simp [objGet_cons, h, ih]

theorem objGet_replace (m : List (String × α)) (k : String) (v : α) (k1 : String) :
    objGet (objReplace m k v) k1 =
      if k1 = k then Option.map (fun _ => v) (objGet m k) else objGet m k1 := by
  induction m with
  | nil => by_cases h : k1 = k <;> simp [objReplace, h]
  | cons a m ih =>
      obtain ⟨k2, w⟩ := a
      by_cases h2 : k2 = k
      · subst h2
        by_cases h1 : k1 = k2
        · subst h1
          simp [objReplace, objGet_cons]
        · have h1b : ¬ k2 = k1 := fun hh => h1 hh.symm
          simp [objReplace, objGet_cons, h1, h1b, ih]
      · by_cases h3 : k2 = k1
        · subst h3
          simp [objReplace, objGet_cons, h2]
        · simp [objReplace, objGet_cons, h2, h3, ih]

theorem objKeys_replace (m : List (String × α)) (k : String) (v : α) :
    objKeys (objReplace m k v) = objKeys m := by
  induction m with
  | nil => rfl
  | cons a m ih =>
      obtain ⟨k2, w⟩ := a
      by_cases h : k2 = k
      · subst h; simp [objReplace, ih]
      · simp [objReplace, h, ih]

theorem objGet_insert (m : List (String × α)) (k : String) (v : α) (k1 : String) :
    objGet (objInsert m k v) k1 = if k1 = k then some v else objGet m k1 := by
  unfold objInsert
  by_cases h : (objGet m k).isSome
  · rw [if_pos h, objGet_replace]
    by_cases h1 : k1 = k
    · subst h1
      cases h2 : objGet m k1 with
      | none => rw [h2] at h; simp at h
      | some w => simp
    · simp [h1]
  · rw [if_neg h, objGet_append]
    by_cases h1 : k1 = k
    · subst h1
      cases h2 : objGet m k1 with
      | none => simp [objGet_cons]
      | some w => rw [h2] at h; simp at h
    · have h2 : ¬ k = k1 := fun hh => h1 hh.symm
      simp [objGet_cons, h1, h2]

theorem objKeys_insert (m : List (String × α)) (k : String) (v : α) :
    objKeys (objInsert m k v) =
      if (objGet m k).isSome then objKeys m else objKeys m ++ [k] := by
  unfold objInsert
  by_cases h : (objGet m k).isSome <;>
    simp [h, objKeys_replace, objKeys_append]

theorem objKeys_nodup_insert {m : List (String × α)} {k : String} (v : α)
    (h : (objKeys m).Nodup) : (objKeys (objInsert m k v)).Nodup := by
  rw [objKeys_insert]
  by_cases h1 : (objGet m k).isSome
  · simp [h1, h]
  · have h2 : k ∉ objKeys m := fun hmem => h1 ((objGet_isSome_iff_mem m k).mpr hmem)
    simp [h1, List.nodup_append, h, h2]

theorem objSpread_nil_right (m : List (String × α)) : objSpread m [] = m := rfl

theorem objSpread_cons (m : List (String × α)) (k : String) (v : α)
    (n : List (String × α)) :
    objSpread m ((k, v) :: n) = objSpread (objInsert m k v) n := rfl

theorem objGet_spread (m n : List (String × α)) (k : String)
    (hn : (objKeys n).Nodup) :
    objGet (objSpread m n) k = oOr (objGet n k) (objGet m k) := by
  induction n generalizing m with
  | nil => simp [objSpread_nil_right]
  | cons a n ih =>
      obtain ⟨k1, v1⟩ := a
      rw [objSpread_cons]
      rw [objKeys_cons, List.nodup_cons] at hn
      rw [ih _ hn.2]
      by_cases h : k1 = k
      · subst h
        have hnone : objGet n k1 = none := objGet_eq_none_of_not_mem hn.1
        simp [objGet_cons, hnone, objGet_insert]
      · have h2 : ¬ k = k1 := fun hh => h hh.symm
        simp [objGet_cons, h, h2, objGet_insert]

theorem objKeys_spread (m n : List (String × α)) (hn : (objKeys n).Nodup) :
    objKeys (objSpread m n) =
      objKeys m ++ (objKeys n).filter (fun k => !objHasKey m k) := by
  induction n generalizing m with
  | nil => simp [objSpread_nil_right]
  | cons a n ih =>
      obtain ⟨k1, v1⟩ := a
      rw [objSpread_cons]
      rw [objKeys_cons, List.nodup_cons] at hn
      rw [ih _ hn.2]
      have hfilter : ∀ x ∈ objKeys n,
          (!objHasKey (objInsert m k1 v1) x) = (!objHasKey m x) := by
        intro x hx
        have hxk : ¬ x = k1 := fun hh => hn.1 (hh ▸ hx)
        simp [objHasKey, objGet_insert, hxk]
      rw [List.filter_congr hfilter, objKeys_insert]
      by_cases h : (objGet m k1).isSome
      · have hk1 : (!objHasKey m k1) = false := by simp [objHasKey, h]
        rw [if_pos h, objKeys_cons, List.filter_cons, hk1]
        simp
      · have hk1 : (!objHasKey m k1) = true := by simp [objHasKey, h]
        rw [if_neg h, objKeys_cons, List.filter_cons, hk1]
        simp

theorem objKeys_nodup_spread {m n : List (String × α)}
    (hm : (objKeys m).Nodup) (hn : (objKeys n).Nodup) :
    (objKeys (objSpread m n)).Nodup := by
  rw [objKeys_spread m n hn]
  refine List.Nodup.append hm (hn.filter _) ?_
  intro x hx hx2
  have h2 := List.of_mem_filter hx2
  have h3 : (objGet m x).isSome = true := (objGet_isSome_iff_mem m x).mpr hx
  simp [objHasKey, h3] at h2

@[simp] theorem objDelete_nil (k : String) :
    objDelete ([] : List (String × α)) k = [] := rfl

theorem objGet_delete (m : List (String × α)) (k k1 : String) :
    objGet (objDelete m k) k1 = if k1 = k then none else objGet m k1 := by
  induction m with
  | nil => by_cases h : k1 = k <;> simp [h]
  | cons a m ih =>
      obtain ⟨k2, w⟩ := a
      by_cases h2 : k2 = k
      · subst h2
        by_cases h1 : k1 = k2
        · subst h1; simp [objDelete, ih]
        · have h1b : ¬ k2 = k1 := fun hh => h1 hh.symm
          simp [objDelete, objGet_cons, h1, h1b, ih]
      · by_cases h3 : k2 = k1
        · subst h3
          simp [objDelete, objGet_cons, h2]
        · simp [objDelete, objGet_cons, h2, h3, ih]

theorem objKeys_delete (m : List (String × α)) (k : String) :
    objKeys (objDelete m k) = (objKeys m).filter (fun x => !(x == k)) := by
  induction m with
  | nil => rfl
  | cons a m ih =>
      obtain ⟨k2, w⟩ := a
      by_cases h : k2 = k
      · subst h; simp [objDelete, ih]
      · simp [objDelete, h, ih]

theorem objKeys_nodup_delete {m : List (String × α)} (k : String)
    (h : (objKeys m).Nodup) : (objKeys (objDelete m k)).Nodup := by
  rw [objKeys_delete]
  exact h.filter _

theorem objMapVals_cons (f : α → β) (k : String) (v : α) (m : List (String × α)) :
    objMapVals f ((k, v) :: m) = (k, f v) :: objMapVals f m := rfl

@[simp] theorem objGet_mapVals (f : α → β) (m : List (String × α)) (k : String) :
    objGet (objMapVals f m) k = (objGet m k).map f := by
  induction m with
  | nil => simp [objMapVals]
  | cons a m ih =>
      obtain ⟨k1, v⟩ := a
      by_cases h : k1 = k <;> simp [objMapVals_cons, objGet_cons, h, ih]

@[simp] theorem objKeys_mapVals (f : α → β) (m : List (String × α)) :
    objKeys (objMapVals f m) = objKeys m := by
  simp [objMapVals, objKeys]

theorem objMapVals_mapVals (f : β → α) (g : α → β) (m : List (String × α)) :
    objMapVals f (objMapVals g m) = objMapVals (fun x => f (g x)) m := by
  simp [objMapVals]

theorem objMapVals_congr {f g : α → β} (m : List (String × α))
    (h : ∀ x, f x = g x) : objMapVals f m = objMapVals g m := by
  simp only [objMapVals]
  exact List.map_congr_left (fun a _ => by rw [h a.2])

theorem objExt {m1 m2 : List (String × α)}
    (hk : objKeys m1 = objKeys m2)
    (hg : ∀ k, objGet m1 k = objGet m2 k)
    (hnd : (objKeys m1).Nodup) : m1 = m2 := by
  induction m1 generalizing m2 with
  | nil =>
      cases m2 with
      | nil => rfl
      | cons b l => simp [objKeys] at hk
  | cons a l ih =>
      cases m2 with
      | nil => simp [objKeys] at hk
      | cons b l2 =>
          obtain ⟨k, v⟩ := a
          obtain ⟨k2, v2⟩ := b
          rw [objKeys_cons, objKeys_cons] at hk
          injection hk with hkk hrest
          subst hkk
          rw [objKeys_cons, List.nodup_cons] at hnd
          have hv : some v = some v2 := by
            have := hg k
            simpa [objGet_cons] using this
          injection hv with hv
          subst hv
          have htail : ∀ k1, objGet l k1 = objGet l2 k1 := by
            intro k1
            by_cases h : k1 = k
            · subst h
              rw [objGet_eq_none_of_not_mem hnd.1,
                objGet_eq_none_of_not_mem (hrest ▸ hnd.1)]
            · have h2 : ¬ k = k1 := fun hh => h hh.symm
              have := hg k1
              rwa [objGet_cons, objGet_cons, if_neg h2, if_neg h2] at this
          rw [ih hrest htail hnd.2]

end ObjLemmas

namespace EnumTypeComposer

theorem deriveValue_stripIsDeprecated (c : EnumValueConfig) :
    deriveValue (stripIsDeprecated c) = deriveValue c := rfl

theorem stripIsDeprecated_deriveValue (c : EnumValueConfig) :
    stripIsDeprecated (deriveValue c) = stripIsDeprecated c := rfl

theorem deriveValue_idem (c : EnumValueConfig) :
    deriveValue (deriveValue c) = deriveValue c := rfl

theorem objKeys_buildNameLookup (v : EnumValueConfigMap) :
    objKeys (buildNameLookup v) = objKeys v := by
  simp [buildNameLookup]

theorem buildNameLookup_strip (v : EnumValueConfigMap) :
    buildNameLookup (objMapVals stripIsDeprecated v) = buildNameLookup v := by
  unfold buildNameLookup
  rw [objMapVals_mapVals]
  exact objMapVals_congr v deriveValue_stripIsDeprecated

theorem buildNameLookup_derive (v : EnumValueConfigMap) :
    buildNameLookup (buildNameLookup v) = buildNameLookup v := by
  unfold buildNameLookup
  rw [objMapVals_mapVals]
  exact objMapVals_congr v deriveValue_idem

theorem values_setFields (etc : EnumTypeComposer) (m : EnumValueConfigMap) :
    (setFields etc m).gqType.enumConfig.values = objMapVals stripIsDeprecated m := rfl

theorem nameLookup_setFields (etc : EnumTypeComposer) (m : EnumValueConfigMap) :
    (setFields etc m).gqType.nameLookup = none := rfl

theorem name_setFields (etc : EnumTypeComposer) (m : EnumValueConfigMap) :
    (setFields etc m).gqType.name = etc.gqType.name := rfl

theorem getFields_setFields (etc : EnumTypeComposer) (m : EnumValueConfigMap) :
    getFields (setFields etc m) = buildNameLookup m := by
  show (setFields etc m).gqType.getNameLookup = buildNameLookup m
  rw [GraphQLEnumType.getNameLookup]
  simp only [nameLookup_setFields, values_setFields]
  exact buildNameLookup_strip m

theorem getFields_of_WF {etc : EnumTypeComposer} (h : WF etc) :
    getFields etc = buildNameLookup etc.gqType.enumConfig.values := by
  obtain ⟨hnd, hcache | hcache⟩ := h <;>
    simp [getFields, GraphQLEnumType.getNameLookup, hcache]

theorem getFields_keys_nodup {etc : EnumTypeComposer} (h : WF etc) :
    (objKeys (getFields etc)).Nodup := by
  rw [getFields_of_WF h, objKeys_buildNameLookup]
  exact h.1

theorem WF_setFields (etc : EnumTypeComposer) {m : EnumValueConfigMap}
    (h : (objKeys m).Nodup) : WF (setFields etc m) := by
  constructor
  · rw [values_setFields]
    simpa using h
  · exact Or.inl rfl

end EnumTypeComposer

namespace EnumTypeComposer

/-- A sample composer used as the concrete state of counterexamples and
witnesses. -/
def sampleETC : EnumTypeComposer :=
  ⟨mkGraphQLEnumType
    { name := "Color"
      values := [("RED", {}), ("GREEN", {}), ("BLUE", {})] }⟩

/-- C1: the claim states `setFields(m); getFields()` returns `m` with stray
`isDeprecated` markers stripped. It fails on a concrete input: the read view
returns value objects that carry the freshly recomputed `isDeprecated`
marker, so the marker is not absent afterwards. -/
theorem c1_counterexample :
    getFields (setFields sampleETC [("A", { isDeprecated := some true })]) ≠
      objMapVals stripIsDeprecated [("A", { isDeprecated := some true })] := by
  decide

/-- C1 (amended): `setFields(m)` installs `m` with every stray `isDeprecated`
marker stripped, and `getFields()` then returns `m` with each value config
carrying the derived marker recomputed from `deprecationReason` presence;
stripping the marker from both sides, the round trip is the identity. -/
theorem c1_setFields_roundtrip (etc : EnumTypeComposer) (m : EnumValueConfigMap) :
    (setFields etc m).gqType.enumConfig.values = objMapVals stripIsDeprecated m ∧
    getFields (setFields etc m) = objMapVals deriveValue m ∧
    objMapVals stripIsDeprecated (getFields (setFields etc m)) =
      objMapVals stripIsDeprecated m := by
  refine ⟨rfl, getFields_setFields etc m, ?_⟩
  rw [getFields_setFields etc m]
  show objMapVals stripIsDeprecated (objMapVals deriveValue m) = _
  rw [objMapVals_mapVals]
  exact objMapVals_congr m stripIsDeprecated_deriveValue

/-- C9: `setTypeName(s)` updates the visible type name and the cached config
mirror name to `s` in the same operation, and `setDescription(s)` does the
same for the description; neither can be observed to diverge. -/
theorem c9_name_description_lockstep (etc : EnumTypeComposer) (s d : String) :
    getTypeName (setTypeName etc s) = s ∧
    (setTypeName etc s).gqType.name = s ∧
    (setTypeName etc s).gqType.enumConfig.name = s ∧
    getDescription (setDescription etc d) = d ∧
    (setDescription etc d).gqType.description = some d ∧
    (setDescription etc d).gqType.enumConfig.description = some d :=
  ⟨rfl, rfl, rfl, rfl, rfl, rfl⟩

/-- C10: `setFields(m)` deletes the `isDeprecated` key from every value
config inside the caller argument `m` itself before installing it: after the
call the caller map carries no markers, and the installed backing map is that
same mutated object. -/
theorem c10_setFields_mutates_argument (etc : EnumTypeComposer)
    (m : EnumValueConfigMap) :
    (setFieldsFull etc m).2 = objMapVals stripIsDeprecated m ∧
    (∀ kv ∈ (setFieldsFull etc m).2, kv.2.isDeprecated = none) ∧
    (setFieldsFull etc m).1.gqType.enumConfig.values = (setFieldsFull etc m).2 := by
  refine ⟨rfl, ?_, rfl⟩
  intro kv hkv
  simp only [setFieldsFull, objMapVals, List.mem_map] at hkv
  obtain ⟨a, _, rfl⟩ := hkv
  rfl

end EnumTypeComposer

namespace EnumTypeComposer

theorem objHasKey_mapVals {α β : Type} (f : α → β) (m : List (String × α))
    (k : String) : objHasKey (objMapVals f m) k = objHasKey m k := by
  simp [objHasKey]

theorem oOr_isSome {α : Type} (x y : Option α) :
    (oOr x y).isSome = (x.isSome || y.isSome) := by
  cases x <;> simp [oOr]

theorem objHasKey_spread {α : Type} (m n : List (String × α)) (k : String)
    (hn : (objKeys n).Nodup) :
    objHasKey (objSpread m n) k = (objHasKey m k || objHasKey n k) := by
  simp [objHasKey, objGet_spread m n k hn, oOr_isSome, Bool.or_comm]

theorem objGet_buildNameLookup (v : EnumValueConfigMap) (k : String) :
    objGet (buildNameLookup v) k = (objGet v k).map deriveValue := by
  simp [buildNameLookup]

theorem setFields_congr {e1 e2 : EnumTypeComposer} {m1 m2 : EnumValueConfigMap}
    (hn : e1.gqType.name = e2.gqType.name)
    (hd : e1.gqType.description = e2.gqType.description)
    (hcn : e1.gqType.enumConfig.name = e2.gqType.enumConfig.name)
    (hcd : e1.gqType.enumConfig.description = e2.gqType.enumConfig.description)
    (hv : objMapVals stripIsDeprecated m1 = objMapVals stripIsDeprecated m2) :
    setFields e1 m1 = setFields e2 m2 := by
  obtain ⟨⟨n1, d1, ⟨cn1, cd1, v1⟩, l1⟩⟩ := e1
  obtain ⟨⟨n2, d2, ⟨cn2, cd2, v2⟩, l2⟩⟩ := e2
  simp_all [setFields, setFieldsFull]

theorem getFields_addFields (etc : EnumTypeComposer) (a : EnumValueConfigMap) :
    getFields (addFields etc a) = buildNameLookup (objSpread (getFields etc) a) :=
  getFields_setFields etc _

/-- C2: adding value maps in two steps equals adding their right-biased
spread in one step: `addFields(a); addFields(b)` produces the same composer
state as `addFields(\x7b ...a, ...b \x7d)`, with `b` winning on shared keys. -/
theorem c2_addFields_merge (etc : EnumTypeComposer) (a b : EnumValueConfigMap)
    (hwf : WF etc) (ha : (objKeys a).Nodup) (hb : (objKeys b).Nodup) :
    addFields (addFields etc a) b = addFields etc (objSpread a b) := by
  have hg : (objKeys (getFields etc)).Nodup := getFields_keys_nodup hwf
  have hga : (objKeys (objSpread (getFields etc) a)).Nodup :=
    objKeys_nodup_spread hg ha
  have hab : (objKeys (objSpread a b)).Nodup := objKeys_nodup_spread ha hb
  show setFields (addFields etc a) (objSpread (getFields (addFields etc a)) b) =
    setFields etc (objSpread (getFields etc) (objSpread a b))
  refine setFields_congr rfl rfl rfl rfl ?_
  rw [getFields_addFields]
  set g := getFields etc with hgdef
  have hDga : (objKeys (buildNameLookup (objSpread g a))).Nodup := by
    rw [objKeys_buildNameLookup]; exact hga
  apply objExt
  · rw [objKeys_mapVals, objKeys_mapVals,
      objKeys_spread _ b hb, objKeys_spread _ _ hab,
      objKeys_buildNameLookup, objKeys_spread g a ha,
      objKeys_spread a b hb, List.filter_append, List.append_assoc]
    congr 1
    congr 1
    have hstep : ∀ x ∈ objKeys b,
        (!objHasKey (buildNameLookup (objSpread g a)) x) =
          ((!objHasKey g x) && !objHasKey a x) := by
      intro x _
      rw [buildNameLookup, objHasKey_mapVals, objHasKey_spread g a x ha,
        Bool.not_or]
    calc List.filter (fun k => !objHasKey (buildNameLookup (objSpread g a)) k)
          (objKeys b)
        = List.filter (fun k => (!objHasKey g k) && !objHasKey a k) (objKeys b) :=
          List.filter_congr hstep
      _ = List.filter (fun k => !objHasKey g k)
            (List.filter (fun k => !objHasKey a k) (objKeys b)) := by
          rw [List.filter_filter]
  · intro k
    rw [objGet_mapVals, objGet_mapVals,
      objGet_spread _ b k hb, objGet_spread _ _ k hab,
      objGet_buildNameLookup, objGet_spread g a k ha,
      objGet_spread a b k hb]
    cases objGet b k <;> cases objGet a k <;> cases objGet g k <;>
      simp [stripIsDeprecated_deriveValue]
  · rw [objKeys_mapVals]
    exact objKeys_nodup_spread hDga hb

/-- C2 witness: a concrete composer and overlapping maps satisfying the
hypotheses of the merge theorem. -/
theorem c2_addFields_merge_witness :
    WF sampleETC ∧
    (objKeys [("RED", ({ deprecationReason := some "old" } : EnumValueConfig))]).Nodup ∧
    (objKeys [("RED", ({ description := some "b wins" } : EnumValueConfig)),
      ("VIOLET", ({} : EnumValueConfig))]).Nodup ∧
    addFields (addFields sampleETC
        [("RED", { deprecationReason := some "old" })])
        [("RED", { description := some "b wins" }), ("VIOLET", {})] =
      addFields sampleETC
        (objSpread [("RED", { deprecationReason := some "old" })]
          [("RED", { description := some "b wins" }), ("VIOLET", {})]) :=
  ⟨by decide, by decide, by decide,
    c2_addFields_merge sampleETC _ _ (by decide) (by decide) (by decide)⟩

end EnumTypeComposer

section FilterLemmas

variable {α β : Type}

theorem objDelete_eq_filter (m : List (String × α)) (k : String) :
    objDelete m k = m.filter (fun kv => !(kv.1 == k)) := by
  induction m with
  | nil => rfl
  | cons a m ih =>
      obtain ⟨k1, v⟩ := a
      by_cases h : k1 = k <;> simp [objDelete, List.filter_cons, h, ih]

theorem foldlDelete_eq_filter (names : List String) (m : List (String × α)) :
    names.foldl objDelete m = m.filter (fun kv => !(names.contains kv.1)) := by
  induction names generalizing m with
  | nil => simp
  | cons n ns ih =>
      rw [List.foldl_cons, ih, objDelete_eq_filter, List.filter_filter]
      apply List.filter_congr
      intro kv _
      rw [List.contains_cons, Bool.not_or, Bool.and_comm]

theorem objKeys_filter_key (m : List (String × α)) (p : String → Bool) :
    objKeys (m.filter (fun kv => p kv.1)) = (objKeys m).filter p := by
  induction m with
  | nil => rfl
  | cons a m ih =>
      obtain ⟨k, v⟩ := a
      by_cases h : p k <;> simp [List.filter_cons, h, ih]

theorem objGet_filter_key (m : List (String × α)) (p : String → Bool) (k : String) :
    objGet (m.filter (fun kv => p kv.1)) k = if p k then objGet m k else none := by
  induction m with
  | nil => by_cases h : p k <;> simp [h]
  | cons a m ih =>
      obtain ⟨k1, v⟩ := a
      by_cases h1 : k1 = k
      · subst h1
        by_cases h : p k1 <;> simp [List.filter_cons, h, objGet_cons, ih]
      · by_cases h : p k1 <;> simp [List.filter_cons, h, objGet_cons, h1, ih]

theorem objMapVals_filter_key (f : α → β) (m : List (String × α))
    (p : String → Bool) :
    objMapVals f (m.filter (fun kv => p kv.1)) =
      (objMapVals f m).filter (fun kv => p kv.1) := by
  induction m with
  | nil => rfl
  | cons a m ih =>
      obtain ⟨k, v⟩ := a
      by_cases h : p k <;> simp [List.filter_cons, objMapVals_cons, h, ih]

theorem objSpread_nil_left {v : List (String × α)} (hv : (objKeys v).Nodup) :
    objSpread [] v = v := by
  apply objExt
  · rw [objKeys_spread _ v hv]
    simp [objHasKey]
  · intro k
    rw [objGet_spread _ v k hv]
    simp
  · rw [objKeys_spread _ v hv]
    simpa [objHasKey] using hv

end FilterLemmas

namespace EnumTypeComposer

theorem buildNameLookup_getFields {etc : EnumTypeComposer} (h : WF etc) :
    buildNameLookup (getFields etc) = getFields etc := by
  rw [getFields_of_WF h, buildNameLookup_derive]

/-- C4: after `removeField` every removed name is no longer a field, names
that are not present fields are silently skipped, and the remaining field
map (names, configs and order) is exactly the prior one minus the given
names. -/
theorem c4_removeField (etc : EnumTypeComposer) (arg : NameOrNames) (x : String)
    (hwf : WF etc) :
    (arg.toList.contains x = true → hasField (removeField etc arg) x = false) ∧
    getFields (removeField etc arg) =
      (getFields etc).filter (fun kv => !(arg.toList.contains kv.1)) := by
  have hmain : getFields (removeField etc arg) =
      (getFields etc).filter (fun kv => !(arg.toList.contains kv.1)) := by
    have h1 : arg.toList.foldl objDelete (getFields etc) =
        (getFields etc).filter (fun kv => !(arg.toList.contains kv.1)) :=
      foldlDelete_eq_filter _ _
    have hnd : (objKeys ((getFields etc).filter
        (fun kv => !(arg.toList.contains kv.1)))).Nodup := by
      rw [objKeys_filter_key (getFields etc) (fun x => !(arg.toList.contains x))]
      exact (getFields_keys_nodup hwf).filter _
    show getFields (setFields etc
      (objSpread [] (arg.toList.foldl objDelete (getFields etc)))) = _
    rw [getFields_setFields, h1, objSpread_nil_left hnd, buildNameLookup,
      objMapVals_filter_key deriveValue (getFields etc)
        (fun x => !(arg.toList.contains x))]
    show (buildNameLookup (getFields etc)).filter _ = _
    rw [buildNameLookup_getFields hwf]
  refine ⟨?_, hmain⟩
  intro hx
  rw [hasField, objHasKey, hmain,
    objGet_filter_key (getFields etc) (fun x => !(arg.toList.contains x)) x]
  simp [hx]
  intro hmem
  exact absurd (by simpa using hx) hmem

/-- C4 witness: removing a present and an absent name from the sample
composer. -/
theorem c4_removeField_witness :
    WF sampleETC ∧
    (((NameOrNames.many ["RED", "MISSING"]).toList.contains "RED" = true →
        hasField (removeField sampleETC (.many ["RED", "MISSING"])) "RED" = false) ∧
      getFields (removeField sampleETC (.many ["RED", "MISSING"])) =
        (getFields sampleETC).filter
          (fun kv => !((NameOrNames.many ["RED", "MISSING"]).toList.contains kv.1))) :=
  ⟨by decide, c4_removeField sampleETC (.many ["RED", "MISSING"]) "RED" (by decide)⟩

end EnumTypeComposer

namespace EnumTypeComposer

theorem reorder_foldl_spec (names : List String) (ord rest : EnumValueConfigMap)
    (hnames : names.Nodup) (hrest : (objKeys rest).Nodup)
    (hdisj : ∀ x, objHasKey ord x = true → objHasKey rest x = false) :
    objKeys (names.foldl reorderStep (ord, rest)).1 =
      objKeys ord ++ names.filter (fun n => objHasKey rest n) ∧
    (names.foldl reorderStep (ord, rest)).2 =
      rest.filter (fun kv => !(names.contains kv.1)) := by
  induction names generalizing ord rest with
  | nil =>
      refine ⟨by simp, ?_⟩
      rw [List.foldl_nil]
      exact (List.filter_eq_self.mpr (fun kv _ => by simp)).symm
  | cons n ns ih =>
      rw [List.nodup_cons] at hnames
      rw [List.foldl_cons]
      cases hget : objGet rest n with
      | none =>
          have hstep : reorderStep (ord, rest) n = (ord, rest) := by
            simp [reorderStep, hget]
          rw [hstep]
          obtain ⟨ihk, ihr⟩ := ih ord rest hnames.2 hrest hdisj
          refine ⟨?_, ?_⟩
          · rw [ihk, List.filter_cons]
            have : objHasKey rest n = false := by simp [objHasKey, hget]
            simp [this]
          · rw [ihr]
            apply List.filter_congr
            intro kv hkv
            have hk : kv.1 ≠ n := by
              intro hh
              have : kv.1 ∈ objKeys rest := List.mem_map_of_mem Prod.fst hkv
              rw [hh] at this
              have := (objGet_isSome_iff_mem rest n).mpr this
              simp [hget] at this
            rw [List.contains_cons]
            have : (kv.1 == n) = false := by simp [hk]
            simp [this]
      | some v =>
          have hstep : reorderStep (ord, rest) n = (objInsert ord n v, objDelete rest n) := by
            simp [reorderStep, hget]
          rw [hstep]
          have hordn : (objGet ord n).isSome = false := by
            cases h : (objGet ord n).isSome
            · rfl
            · have := hdisj n (by simpa [objHasKey] using h)
              simp [objHasKey, hget] at this
          have hdelnd : (objKeys (objDelete rest n)).Nodup := by
            rw [objKeys_delete]
            exact hrest.filter _
          have hdisj2 : ∀ x, objHasKey (objInsert ord n v) x = true →
              objHasKey (objDelete rest n) x = false := by
            intro x hx
            by_cases hxn : x = n
            · subst hxn
              simp [objHasKey, objGet_delete]
            · rw [objHasKey, objGet_insert, if_neg hxn] at hx
              have := hdisj x hx
              simp [objHasKey, objGet_delete, hxn] at this ⊢
              exact this
          obtain ⟨ihk, ihr⟩ := ih (objInsert ord n v) (objDelete rest n)
            hnames.2 hdelnd hdisj2
          refine ⟨?_, ?_⟩
          · rw [ihk, objKeys_insert, hordn]
            have hfcong : ∀ x ∈ ns,
                objHasKey (objDelete rest n) x = objHasKey rest x := by
              intro x hx
              have hxn : ¬ x = n := fun hh => hnames.1 (hh ▸ hx)
              simp [objHasKey, objGet_delete, hxn]
            rw [List.filter_congr hfcong, List.filter_cons]
            have : objHasKey rest n = true := by simp [objHasKey, hget]
            simp [this, List.append_assoc]
          · rw [ihr, objDelete_eq_filter, List.filter_filter]
            apply List.filter_congr
            intro kv _
            rw [List.contains_cons, Bool.not_or, Bool.and_comm]

/-- C3: `reorderFields(names)` moves the named present fields to the front
in the given order, skips names that are not fields, keeps all remaining
fields afterwards in their prior relative order, and neither adds nor
removes fields. -/
theorem c3_reorderFields (etc : EnumTypeComposer) (names : List String)
    (hwf : WF etc) (hnd : names.Nodup) :
    getFieldNames (reorderFields etc names) =
      names.filter (fun n => hasField etc n) ++
        (getFieldNames etc).filter (fun n => !(names.contains n)) ∧
    ∀ x, hasField (reorderFields etc names) x = hasField etc x := by
  have hg : (objKeys (getFields etc)).Nodup := getFields_keys_nodup hwf
  obtain ⟨hk1, hr2⟩ := reorder_foldl_spec names [] (getFields etc) hnd hg
    (by intro x hx; simp [objHasKey] at hx)
  set r := names.foldl reorderStep ([], getFields etc) with hrdef
  have hkeys2 : objKeys r.2 =
      (objKeys (getFields etc)).filter (fun x => !(names.contains x)) := by
    rw [hr2]
    exact objKeys_filter_key (getFields etc) (fun x => !(names.contains x))
  have hnd2 : (objKeys r.2).Nodup := by
    rw [hkeys2]; exact hg.filter _
  have hmain : getFieldNames (reorderFields etc names) =
      names.filter (fun n => hasField etc n) ++
        (getFieldNames etc).filter (fun n => !(names.contains n)) := by
    show objKeys (getFields (setFields etc (objSpread r.1 r.2))) = _
    rw [getFields_setFields, objKeys_buildNameLookup, objKeys_spread _ _ hnd2]
    have hfilt : List.filter (fun k => !objHasKey r.1 k) (objKeys r.2) =
        objKeys r.2 := by
      apply List.filter_eq_self.mpr
      intro x hx
      have hx2 : x ∉ names := by
        rw [hkeys2] at hx
        have := List.of_mem_filter hx
        intro hmem
        simp [hmem] at this
      cases hhk : objHasKey r.1 x
      · rfl
      · exfalso
        have hxmem : x ∈ objKeys r.1 :=
          (objGet_isSome_iff_mem r.1 x).mp (by simpa [objHasKey] using hhk)
        rw [hk1] at hxmem
        simp at hxmem
        exact hx2 hxmem.1
    rw [hfilt, hk1, hkeys2]
    rfl
  refine ⟨hmain, ?_⟩
  intro x
  have hiff : hasField (reorderFields etc names) x = true ↔
      hasField etc x = true := by
    rw [hasField, hasField, objHasKey, objHasKey,
      objGet_isSome_iff_mem, objGet_isSome_iff_mem]
    show x ∈ getFieldNames (reorderFields etc names) ↔ x ∈ getFieldNames etc
    rw [hmain]
    simp only [List.mem_append, List.mem_filter]
    constructor
    · rintro (h | h)
      · have := h.2
        rw [hasField, objHasKey, objGet_isSome_iff_mem] at this
        exact this
      · exact h.1
    · intro h
      by_cases hmem : x ∈ names
      · left
        refine ⟨hmem, ?_⟩
        rw [hasField, objHasKey, objGet_isSome_iff_mem]
        exact h
      · right
        exact ⟨h, by simp [hmem]⟩
  cases h2 : hasField etc x
  · cases h3 : hasField (reorderFields etc names) x
    · rfl
    · rw [h2] at hiff
      simp at hiff
      rw [h3] at hiff
      simp at hiff
  · exact hiff.mpr h2

/-- C3 witness: reordering the sample composer with one present and one
absent name. -/
theorem c3_reorderFields_witness :
    WF sampleETC ∧ (["GREEN", "MISSING"] : List String).Nodup ∧
    (getFieldNames (reorderFields sampleETC ["GREEN", "MISSING"]) =
      (["GREEN", "MISSING"].filter (fun n => hasField sampleETC n)) ++
        (getFieldNames sampleETC).filter
          (fun n => !((["GREEN", "MISSING"] : List String).contains n)) ∧
      ∀ x, hasField (reorderFields sampleETC ["GREEN", "MISSING"]) x =
        hasField sampleETC x) :=
  ⟨by decide, by decide,
    c3_reorderFields sampleETC ["GREEN", "MISSING"] (by decide) (by decide)⟩

end EnumTypeComposer

namespace EnumTypeComposer

theorem objGet_getFields_derive {etc : EnumTypeComposer} (hwf : WF etc)
    (k : String) :
    (objGet (getFields etc) k).map deriveValue = objGet (getFields etc) k := by
  calc (objGet (getFields etc) k).map deriveValue
      = objGet (buildNameLookup (getFields etc)) k :=
        (objGet_buildNameLookup _ k).symm
    _ = objGet (getFields etc) k := by rw [buildNameLookup_getFields hwf]

theorem extendField_ok {etc : EnumTypeComposer} {name : String}
    {patch prev : EnumValueConfig}
    (h : objGet (getFields etc) name = some prev) :
    extendField etc name patch =
      .ok (setField etc name (shallowMerge prev patch)) := by
  simp [extendField, getField, h]

theorem extendField_absent {etc : EnumTypeComposer} {name : String}
    {patch : EnumValueConfig}
    (h : objGet (getFields etc) name = none) :
    extendField etc name patch =
      .error ("Cannot extend value \x27" ++ name ++ "\x27 from enum \x27" ++
        getTypeName etc ++ "\x27. Value does not exist.") := by
  simp [extendField, getField, h]

theorem getFields_setField (etc : EnumTypeComposer) (name : String)
    (c : EnumValueConfig) :
    getFields (setField etc name c) =
      buildNameLookup (objSpread (getFields etc) [(name, c)]) :=
  getFields_setFields _ _

theorem singleton_keys_nodup (name : String) (c : EnumValueConfig) :
    (objKeys [(name, c)]).Nodup := by simp

theorem objGet_setField_self (etc : EnumTypeComposer) (name : String)
    (c : EnumValueConfig) :
    objGet (getFields (setField etc name c)) name = some (deriveValue c) := by
  rw [getFields_setField, objGet_buildNameLookup,
    objGet_spread _ _ _ (singleton_keys_nodup name c), objGet_cons]
  simp

theorem objGet_setField_other (etc : EnumTypeComposer) (name : String)
    (c : EnumValueConfig) (other : String) (hdiff : other ≠ name)
    (hwf : WF etc) :
    objGet (getFields (setField etc name c)) other =
      objGet (getFields etc) other := by
  rw [getFields_setField, objGet_buildNameLookup,
    objGet_spread _ _ _ (singleton_keys_nodup name c), objGet_cons,
    if_neg (fun hh => hdiff hh.symm)]
  simp only [objGet_nil, oOr_none_left]
  exact objGet_getFields_derive hwf other

theorem hasField_setField (etc : EnumTypeComposer) (name : String)
    (c : EnumValueConfig) (x : String) (hwf : WF etc)
    (hpres : hasField etc name = true) :
    hasField (setField etc name c) x = hasField etc x := by
  rw [hasField, hasField, objHasKey, objHasKey]
  by_cases hx : x = name
  · subst hx
    rw [objGet_setField_self]
    rw [hasField, objHasKey] at hpres
    simp [hpres]
  · rw [objGet_setField_other etc name c x hx hwf]

theorem WF_setField (etc : EnumTypeComposer) (name : String)
    (c : EnumValueConfig) (hwf : WF etc) : WF (setField etc name c) :=
  WF_setFields etc
    (objKeys_nodup_spread (getFields_keys_nodup hwf) (singleton_keys_nodup name c))

/-- C5: the claim predicts the config observed after `extendField` is the
plain shallow merge of the previously observed config with the patch; it
fails on a concrete input, because the derived `isDeprecated` marker of the
merged config is recomputed from the merged `deprecationReason` instead of
being carried over from the prior observed config. -/
theorem c5_counterexample :
    objGet (getFields sampleETC) "RED" =
      some { isDeprecated := some false } ∧
    (match extendField sampleETC "RED" { deprecationReason := some "old" } with
      | .ok e => objGet (getFields e) "RED"
      | .error _ => none) ≠
      some (shallowMerge { isDeprecated := some false }
        { deprecationReason := some "old" }) :=
  ⟨by decide, by decide⟩

/-- C5 (amended): `extendField` fails, with the message naming the field,
exactly when the name is absent; on a present name the observed config
afterwards is the shallow merge of the previously observed config with the
patch, with the derived `isDeprecated` marker recomputed from the merged
`deprecationReason`, and every other field is unchanged. -/
theorem c5_extendField (etc : EnumTypeComposer) (name : String)
    (patch : EnumValueConfig) (hwf : WF etc) :
    (hasField etc name = false →
      extendField etc name patch =
        .error ("Cannot extend value \x27" ++ name ++ "\x27 from enum \x27" ++
          getTypeName etc ++ "\x27. Value does not exist.")) ∧
    (∀ prev, objGet (getFields etc) name = some prev →
      extendField etc name patch =
        .ok (setField etc name (shallowMerge prev patch)) ∧
      objGet (getFields (setField etc name (shallowMerge prev patch))) name =
        some (deriveValue (shallowMerge prev patch)) ∧
      ∀ other, other ≠ name →
        objGet (getFields (setField etc name (shallowMerge prev patch))) other =
          objGet (getFields etc) other) := by
  constructor
  · intro habs
    apply extendField_absent
    rw [hasField, objHasKey] at habs
    cases h : objGet (getFields etc) name
    · rfl
    · rw [h] at habs; simp at habs
  · intro prev hprev
    refine ⟨extendField_ok hprev, objGet_setField_self etc name _, ?_⟩
    intro other hdiff
    exact objGet_setField_other etc name _ other hdiff hwf

/-- C5 witness: extending a present field of the sample composer. -/
theorem c5_extendField_witness :
    WF sampleETC ∧
    ((hasField sampleETC "GREEN" = false →
        extendField sampleETC "GREEN" { deprecationReason := some "why" } =
          .error ("Cannot extend value \x27GREEN\x27 from enum \x27" ++
            getTypeName sampleETC ++ "\x27. Value does not exist.")) ∧
      (∀ prev, objGet (getFields sampleETC) "GREEN" = some prev →
        extendField sampleETC "GREEN" { deprecationReason := some "why" } =
          .ok (setField sampleETC "GREEN"
            (shallowMerge prev { deprecationReason := some "why" })) ∧
        objGet (getFields (setField sampleETC "GREEN"
            (shallowMerge prev { deprecationReason := some "why" }))) "GREEN" =
          some (deriveValue (shallowMerge prev { deprecationReason := some "why" })) ∧
        ∀ other, other ≠ "GREEN" →
          objGet (getFields (setField sampleETC "GREEN"
              (shallowMerge prev { deprecationReason := some "why" }))) other =
            objGet (getFields sampleETC) other)) :=
  ⟨by decide, c5_extendField sampleETC "GREEN" { deprecationReason := some "why" }
    (by decide)⟩

end EnumTypeComposer

/-- The name/reason pair list a `deprecateFields` argument denotes: the
string and array forms pair each name with the fixed reason "deprecated",
the object form keeps its own entries. -/
def DeprecateArg.pairs : DeprecateArg → List (String × String)
  | .one name => [(name, "deprecated")]
  | .many names => names.map (fun n => (n, "deprecated"))
  | .table m => m

namespace EnumTypeComposer

/-- The `deprecateFields` iteration over name/reason pairs. -/
def deprecateLoop (existed : List String) (pairs : List (String × String))
    (acc : EnumTypeComposer × Option String) : EnumTypeComposer × Option String :=
  pairs.foldl (fun a kv => deprecateOne existed a kv.1 kv.2) acc

theorem deprecateFields_eq_loop (etc : EnumTypeComposer) (arg : DeprecateArg) :
    deprecateFields etc arg =
      deprecateLoop (getFieldNames etc) arg.pairs (etc, none) := by
  cases arg with
  | one name => rfl
  | many names =>
      show names.foldl (fun acc n => deprecateOne (getFieldNames etc) acc n "deprecated")
        (etc, none) = _
      rw [deprecateLoop, DeprecateArg.pairs, List.foldl_map]
  | table m => rfl

theorem deprecate_loop_frozen (existed : List String)
    (pairs : List (String × String)) (s : EnumTypeComposer) (msg : String) :
    deprecateLoop existed pairs (s, some msg) = (s, some msg) := by
  induction pairs with
  | nil => rfl
  | cons p ps ih =>
      rw [deprecateLoop, List.foldl_cons]
      exact ih

theorem contains_getFieldNames (etc : EnumTypeComposer) (k : String) :
    (getFieldNames etc).contains k = hasField etc k := by
  cases h : hasField etc k
  · cases h2 : (getFieldNames etc).contains k
    · rfl
    · exfalso
      have hk : k ∈ objKeys (getFields etc) := by
        simpa [getFieldNames] using h2
      have hs := (objGet_isSome_iff_mem (getFields etc) k).mpr hk
      rw [hasField, objHasKey] at h
      rw [h] at hs
      simp at hs
  · have hk : k ∈ objKeys (getFields etc) := by
      apply (objGet_isSome_iff_mem (getFields etc) k).mp
      simpa [hasField, objHasKey] using h
    simpa [getFieldNames] using hk

theorem deprecate_loop_ok (existed : List String)
    (pairs : List (String × String)) (s : EnumTypeComposer) (hwf : WF s)
    (hmem : ∀ k, existed.contains k = hasField s k)
    (hall : ∀ p ∈ pairs, existed.contains p.1 = true)
    (hcons : ∀ p ∈ pairs, ∀ q ∈ pairs, p.1 = q.1 → p.2 = q.2) :
    (deprecateLoop existed pairs (s, none)).2 = none ∧
    WF (deprecateLoop existed pairs (s, none)).1 ∧
    getTypeName (deprecateLoop existed pairs (s, none)).1 = getTypeName s ∧
    (∀ k, existed.contains k = hasField (deprecateLoop existed pairs (s, none)).1 k) ∧
    (∀ k, (∀ p ∈ pairs, p.1 ≠ k) →
      objGet (getFields (deprecateLoop existed pairs (s, none)).1) k =
        objGet (getFields s) k) ∧
    (∀ p ∈ pairs, ∃ c,
      objGet (getFields (deprecateLoop existed pairs (s, none)).1) p.1 = some c ∧
      c.deprecationReason = some p.2) := by
  induction pairs generalizing s with
  | nil =>
      exact ⟨rfl, hwf, rfl, hmem, fun k _ => rfl, fun p hp => absurd hp (by simp)⟩
  | cons p0 ps ih =>
      obtain ⟨k0, r0⟩ := p0
      have hk0 : existed.contains k0 = true := hall _ (List.mem_cons_self _ _)
      have hhf : hasField s k0 = true := by rw [← hmem]; exact hk0
      obtain ⟨prev, hprev⟩ : ∃ prev, objGet (getFields s) k0 = some prev := by
        rw [hasField, objHasKey] at hhf
        cases hq : objGet (getFields s) k0
        · rw [hq] at hhf; simp at hhf
        · exact ⟨_, rfl⟩
      have hk0m : k0 ∈ existed := by simpa using hk0
      have hstep : deprecateOne existed (s, none) k0 r0 =
          (setField s k0 (shallowMerge prev { deprecationReason := some r0 }), none) := by
        simp [deprecateOne, hk0m, extendField_ok hprev]
      have hunfold : deprecateLoop existed ((k0, r0) :: ps) (s, none) =
          deprecateLoop existed ps
            (setField s k0 (shallowMerge prev { deprecationReason := some r0 }), none) := by
        show deprecateLoop existed ps (deprecateOne existed (s, none) k0 r0) = _
        rw [hstep]
      set e := setField s k0 (shallowMerge prev { deprecationReason := some r0 })
        with hedef
      have hwf2 : WF e := WF_setField s k0 _ hwf
      have hmem2 : ∀ k, existed.contains k = hasField e k := by
        intro k
        rw [hmem k, hasField_setField s k0 _ k hwf hhf]
      have hall2 : ∀ p ∈ ps, existed.contains p.1 = true :=
        fun p hp => hall p (List.mem_cons_of_mem _ hp)
      have hcons2 : ∀ p ∈ ps, ∀ q ∈ ps, p.1 = q.1 → p.2 = q.2 :=
        fun p hp q hq => hcons p (List.mem_cons_of_mem _ hp) q (List.mem_cons_of_mem _ hq)
      obtain ⟨ih1, ih2, ih3, ih4, ih5, ih6⟩ := ih e hwf2 hmem2 hall2 hcons2
      rw [hunfold]
      refine ⟨ih1, ih2, by rw [ih3]; rfl, ih4, ?_, ?_⟩
      · intro k hk
        have hk0k : k0 ≠ k := hk (k0, r0) (List.mem_cons_self _ _)
        rw [ih5 k (fun p hp => hk p (List.mem_cons_of_mem _ hp))]
        exact objGet_setField_other s k0 _ k (fun hh => hk0k hh.symm) hwf
      · intro p hp
        rcases List.mem_cons.mp hp with hph | hpt
        · subst hph
          by_cases hrest : ∃ q ∈ ps, q.1 = k0
          · obtain ⟨q, hq, hqk⟩ := hrest
            have hqr : q.2 = r0 := by
              have := hcons q (List.mem_cons_of_mem _ hq) (k0, r0)
                (List.mem_cons_self _ _) (by rw [hqk])
              simpa using this
            obtain ⟨c, hc1, hc2⟩ := ih6 q hq
            rw [hqk] at hc1
            exact ⟨c, hc1, by rw [hc2, hqr]⟩
          · push_neg at hrest
            have huntouched : ∀ q ∈ ps, q.1 ≠ k0 := hrest
            have := ih5 k0 huntouched
            rw [this, objGet_setField_self]
            refine ⟨_, rfl, ?_⟩
            simp [deriveValue, shallowMerge, oOr]
        · exact ih6 p hpt

theorem deprecate_loop_fail (existed : List String)
    (pre post : List (String × String)) (bad badr : String)
    (s : EnumTypeComposer) (hwf : WF s)
    (hmem : ∀ k, existed.contains k = hasField s k)
    (hpre : ∀ p ∈ pre, existed.contains p.1 = true)
    (hbad : existed.contains bad = false)
    (hcons : ∀ p ∈ pre, ∀ q ∈ pre, p.1 = q.1 → p.2 = q.2) :
    (deprecateLoop existed (pre ++ (bad, badr) :: post) (s, none)).2 =
      some (cannotDeprecateMsg bad (getTypeName s)) ∧
    (∀ k, (∀ p ∈ pre, p.1 ≠ k) →
      objGet (getFields (deprecateLoop existed (pre ++ (bad, badr) :: post)
        (s, none)).1) k = objGet (getFields s) k) ∧
    (∀ p ∈ pre, ∃ c,
      objGet (getFields (deprecateLoop existed (pre ++ (bad, badr) :: post)
        (s, none)).1) p.1 = some c ∧
      c.deprecationReason = some p.2) := by
  induction pre generalizing s with
  | nil =>
      have hbadm : bad ∉ existed := by
        intro hmem
        have : existed.contains bad = true := by simpa using hmem
        rw [hbad] at this
        simp at this
      have hstep : deprecateOne existed (s, none) bad badr =
          (s, some (cannotDeprecateMsg bad (getTypeName s))) := by
        simp [deprecateOne, hbadm]
      have hunfold : deprecateLoop existed ([] ++ (bad, badr) :: post) (s, none) =
          (s, some (cannotDeprecateMsg bad (getTypeName s))) := by
        show deprecateLoop existed post (deprecateOne existed (s, none) bad badr) = _
        rw [hstep]
        exact deprecate_loop_frozen existed post s _
      rw [hunfold]
      exact ⟨rfl, fun k _ => rfl, fun p hp => absurd hp (by simp)⟩
  | cons p0 pre2 ih =>
      obtain ⟨k0, r0⟩ := p0
      have hk0 : existed.contains k0 = true := hpre _ (List.mem_cons_self _ _)
      have hhf : hasField s k0 = true := by rw [← hmem]; exact hk0
      obtain ⟨prev, hprev⟩ : ∃ prev, objGet (getFields s) k0 = some prev := by
        rw [hasField, objHasKey] at hhf
        cases hq : objGet (getFields s) k0
        · rw [hq] at hhf; simp at hhf
        · exact ⟨_, rfl⟩
      have hk0m : k0 ∈ existed := by simpa using hk0
      have hstep : deprecateOne existed (s, none) k0 r0 =
          (setField s k0 (shallowMerge prev { deprecationReason := some r0 }), none) := by
        simp [deprecateOne, hk0m, extendField_ok hprev]
      have hunfold : deprecateLoop existed (((k0, r0) :: pre2) ++ (bad, badr) :: post)
          (s, none) =
          deprecateLoop existed (pre2 ++ (bad, badr) :: post)
            (setField s k0 (shallowMerge prev { deprecationReason := some r0 }), none) := by
        show deprecateLoop existed (pre2 ++ (bad, badr) :: post)
          (deprecateOne existed (s, none) k0 r0) = _
        rw [hstep]
      set e := setField s k0 (shallowMerge prev { deprecationReason := some r0 })
        with hedef
      have hwf2 : WF e := WF_setField s k0 _ hwf
      have hmem2 : ∀ k, existed.contains k = hasField e k := by
        intro k
        rw [hmem k, hasField_setField s k0 _ k hwf hhf]
      have hpre2 : ∀ p ∈ pre2, existed.contains p.1 = true :=
        fun p hp => hpre p (List.mem_cons_of_mem _ hp)
      have hcons2 : ∀ p ∈ pre2, ∀ q ∈ pre2, p.1 = q.1 → p.2 = q.2 :=
        fun p hp q hq => hcons p (List.mem_cons_of_mem _ hp) q (List.mem_cons_of_mem _ hq)
      obtain ⟨ih1, ih2, ih3⟩ := ih e hwf2 hmem2 hpre2 hcons2
      rw [hunfold]
      refine ⟨by rw [ih1]; rfl, ?_, ?_⟩
      · intro k hk
        have hk0k : k0 ≠ k := hk (k0, r0) (List.mem_cons_self _ _)
        rw [ih2 k (fun p hp => hk p (List.mem_cons_of_mem _ hp))]
        exact objGet_setField_other s k0 _ k (fun hh => hk0k hh.symm) hwf
      · intro p hp
        rcases List.mem_cons.mp hp with hph | hpt
        · subst hph
          by_cases hrest : ∃ q ∈ pre2, q.1 = k0
          · obtain ⟨q, hq, hqk⟩ := hrest
            have hqr : q.2 = r0 := by
              have := hcons q (List.mem_cons_of_mem _ hq) (k0, r0)
                (List.mem_cons_self _ _) (by rw [hqk])
              simpa using this
            obtain ⟨c, hc1, hc2⟩ := ih3 q hq
            rw [hqk] at hc1
            exact ⟨c, hc1, by rw [hc2, hqr]⟩
          · push_neg at hrest
            have := ih2 k0 hrest
            rw [this, objGet_setField_self]
            refine ⟨_, rfl, ?_⟩
            simp [deriveValue, shallowMerge, oOr]
        · exact ih3 p hpt

end EnumTypeComposer

namespace EnumTypeComposer

/-- C6: `deprecateFields` fails with the not-found message naming the first
missing field whenever the argument mentions a field name that is not
present; when every mentioned name exists no error is raised, and every
named field ends up with the argument reason as its `deprecationReason`:
the fixed reason "deprecated" for the string and array forms, the
caller-supplied per-field reason for the mapping form. -/
theorem c6_deprecateFields (etc : EnumTypeComposer) (arg : DeprecateArg)
    (hwf : WF etc)
    (hcons : ∀ p ∈ arg.pairs, ∀ q ∈ arg.pairs, p.1 = q.1 → p.2 = q.2) :
    ((∀ p ∈ arg.pairs, hasField etc p.1 = true) →
      (deprecateFields etc arg).2 = none ∧
      ∀ p ∈ arg.pairs, ∃ c,
        objGet (getFields (deprecateFields etc arg).1) p.1 = some c ∧
        c.deprecationReason = some p.2) ∧
    (∀ pre bad badr post, arg.pairs = pre ++ (bad, badr) :: post →
      (∀ p ∈ pre, hasField etc p.1 = true) →
      hasField etc bad = false →
      (deprecateFields etc arg).2 =
        some (cannotDeprecateMsg bad (getTypeName etc))) := by
  have hmem : ∀ k, (getFieldNames etc).contains k = hasField etc k :=
    contains_getFieldNames etc
  rw [deprecateFields_eq_loop]
  constructor
  · intro hall
    have hall2 : ∀ p ∈ arg.pairs, (getFieldNames etc).contains p.1 = true := by
      intro p hp; rw [hmem]; exact hall p hp
    obtain ⟨h1, _, _, _, _, h6⟩ :=
      deprecate_loop_ok (getFieldNames etc) arg.pairs etc hwf hmem hall2 hcons
    exact ⟨h1, h6⟩
  · intro pre bad badr post hsplit hpre hbad
    rw [hsplit]
    have hpre2 : ∀ p ∈ pre, (getFieldNames etc).contains p.1 = true := by
      intro p hp; rw [hmem]; exact hpre p hp
    have hbad2 : (getFieldNames etc).contains bad = false := by
      rw [hmem]; exact hbad
    have hconspre : ∀ p ∈ pre, ∀ q ∈ pre, p.1 = q.1 → p.2 = q.2 := by
      intro p hp q hq
      refine hcons p ?_ q ?_
      · rw [hsplit]; exact List.mem_append_left _ hp
      · rw [hsplit]; exact List.mem_append_left _ hq
    exact (deprecate_loop_fail (getFieldNames etc) pre post bad badr etc hwf
      hmem hpre2 hbad2 hconspre).1

/-- C6 witness: deprecating two present fields with per-field reasons via
the mapping form on the sample composer. -/
theorem c6_deprecateFields_witness :
    WF sampleETC ∧
    (∀ p ∈ (DeprecateArg.table [("RED", "r1"), ("GREEN", "g1")]).pairs,
      ∀ q ∈ (DeprecateArg.table [("RED", "r1"), ("GREEN", "g1")]).pairs,
      p.1 = q.1 → p.2 = q.2) ∧
    (((∀ p ∈ (DeprecateArg.table [("RED", "r1"), ("GREEN", "g1")]).pairs,
        hasField sampleETC p.1 = true) →
      (deprecateFields sampleETC (.table [("RED", "r1"), ("GREEN", "g1")])).2 = none ∧
      ∀ p ∈ (DeprecateArg.table [("RED", "r1"), ("GREEN", "g1")]).pairs, ∃ c,
        objGet (getFields (deprecateFields sampleETC
          (.table [("RED", "r1"), ("GREEN", "g1")])).1) p.1 = some c ∧
        c.deprecationReason = some p.2) ∧
    (∀ pre bad badr post,
      (DeprecateArg.table [("RED", "r1"), ("GREEN", "g1")]).pairs =
        pre ++ (bad, badr) :: post →
      (∀ p ∈ pre, hasField sampleETC p.1 = true) →
      hasField sampleETC bad = false →
      (deprecateFields sampleETC (.table [("RED", "r1"), ("GREEN", "g1")])).2 =
        some (cannotDeprecateMsg bad (getTypeName sampleETC)))) :=
  ⟨by decide, by decide,
    c6_deprecateFields sampleETC (.table [("RED", "r1"), ("GREEN", "g1")])
      (by decide) (by decide)⟩

/-- C7: when a later entry of an array argument, or of a name-to-reason map
argument, names a missing field, the fields named by the entries before it
have already been deprecated at the moment the error is raised: deprecation
is applied per name immediately, not validated up front, so the failure
leaves a partial mutation of the composer state. -/
theorem c7_deprecateFields_partialApply (etc : EnumTypeComposer) (bad : String)
    (hwf : WF etc) (hbad : hasField etc bad = false) :
    (∀ pre post, (∀ n ∈ pre, hasField etc n = true) →
      (deprecateFields etc (.many (pre ++ bad :: post))).2 =
        some (cannotDeprecateMsg bad (getTypeName etc)) ∧
      ∀ n ∈ pre, ∃ c,
        objGet (getFields (deprecateFields etc (.many (pre ++ bad :: post))).1) n =
          some c ∧ c.deprecationReason = some "deprecated") ∧
    (∀ tpre badr tpost,
      (∀ p ∈ tpre, ∀ q ∈ tpre, p.1 = q.1 → p.2 = q.2) →
      (∀ p ∈ tpre, hasField etc p.1 = true) →
      (deprecateFields etc (.table (tpre ++ (bad, badr) :: tpost))).2 =
        some (cannotDeprecateMsg bad (getTypeName etc)) ∧
      ∀ p ∈ tpre, ∃ c,
        objGet (getFields (deprecateFields etc
          (.table (tpre ++ (bad, badr) :: tpost))).1) p.1 =
          some c ∧ c.deprecationReason = some p.2) := by
  have hmem : ∀ k, (getFieldNames etc).contains k = hasField etc k :=
    contains_getFieldNames etc
  have hbad2 : (getFieldNames etc).contains bad = false := by
    rw [hmem]; exact hbad
  constructor
  · intro pre post hpre
    rw [deprecateFields_eq_loop]
    have hpairs : (DeprecateArg.many (pre ++ bad :: post)).pairs =
        (pre.map (fun n => (n, "deprecated"))) ++ (bad, "deprecated") ::
          (post.map (fun n => (n, "deprecated"))) := by
      simp [DeprecateArg.pairs]
    rw [hpairs]
    have hpre2 : ∀ p ∈ pre.map (fun n => (n, "deprecated")),
        (getFieldNames etc).contains p.1 = true := by
      intro p hp
      obtain ⟨n, hn, rfl⟩ := List.mem_map.mp hp
      rw [hmem]; exact hpre n hn
    have hconspre : ∀ p ∈ pre.map (fun n => (n, "deprecated")),
        ∀ q ∈ pre.map (fun n => (n, "deprecated")), p.1 = q.1 → p.2 = q.2 := by
      intro p hp q hq _
      obtain ⟨n1, _, rfl⟩ := List.mem_map.mp hp
      obtain ⟨n2, _, rfl⟩ := List.mem_map.mp hq
      rfl
    obtain ⟨h1, _, h3⟩ := deprecate_loop_fail (getFieldNames etc) _ _ bad
      "deprecated" etc hwf hmem hpre2 hbad2 hconspre
    refine ⟨h1, ?_⟩
    intro n hn
    exact h3 (n, "deprecated") (List.mem_map_of_mem _ hn)
  · intro tpre badr tpost hcons htpre
    rw [deprecateFields_eq_loop]
    simp only [DeprecateArg.pairs]
    have htpre2 : ∀ p ∈ tpre, (getFieldNames etc).contains p.1 = true := by
      intro p hp; rw [hmem]; exact htpre p hp
    obtain ⟨h1, _, h3⟩ := deprecate_loop_fail (getFieldNames etc) tpre tpost bad
      badr etc hwf hmem htpre2 hbad2 hcons
    exact ⟨h1, h3⟩

/-- C7 witness: the sample composer with the absent field PURPLE, covering a
one-present-entry prefix for both the array form and the map form. -/
theorem c7_deprecateFields_partialApply_witness :
    WF sampleETC ∧ hasField sampleETC "PURPLE" = false ∧
    ((∀ pre post, (∀ n ∈ pre, hasField sampleETC n = true) →
      (deprecateFields sampleETC (.many (pre ++ "PURPLE" :: post))).2 =
        some (cannotDeprecateMsg "PURPLE" (getTypeName sampleETC)) ∧
      ∀ n ∈ pre, ∃ c,
        objGet (getFields (deprecateFields sampleETC
          (.many (pre ++ "PURPLE" :: post))).1) n =
          some c ∧ c.deprecationReason = some "deprecated") ∧
    (∀ tpre badr tpost,
      (∀ p ∈ tpre, ∀ q ∈ tpre, p.1 = q.1 → p.2 = q.2) →
      (∀ p ∈ tpre, hasField sampleETC p.1 = true) →
      (deprecateFields sampleETC (.table (tpre ++ ("PURPLE", badr) :: tpost))).2 =
        some (cannotDeprecateMsg "PURPLE" (getTypeName sampleETC)) ∧
      ∀ p ∈ tpre, ∃ c,
        objGet (getFields (deprecateFields sampleETC
          (.table (tpre ++ ("PURPLE", badr) :: tpost))).1) p.1 =
          some c ∧ c.deprecationReason = some p.2)) :=
  ⟨by decide, by decide,
    c7_deprecateFields_partialApply sampleETC "PURPLE" (by decide) (by decide)⟩

theorem getFields_setDescription (etc : EnumTypeComposer) (d : String) :
    getFields (setDescription etc d) = getFields etc := rfl

/-- C8: `clone` fails exactly on an empty new name; otherwise the clone is a
fresh composer under the new name whose backing value map is rebuilt from
per-entry copies of the observed configs with the `isDeprecated` marker
deleted, whose observed field map equals the original one, and whose
description equals the original one. Being rebuilt from copies, in the
by-value semantics of this embedding it shares no state with the original. -/
theorem c8_clone (etc : EnumTypeComposer) (newName : String) (hwf : WF etc) :
    (newName = "" → clone etc newName =
      .error "You should provide newTypeName:string for EnumTypeComposer.clone()") ∧
    (newName ≠ "" → ∃ e, clone etc newName = .ok e ∧
      getTypeName e = newName ∧
      e.gqType.enumConfig.values = objMapVals stripIsDeprecated (getFields etc) ∧
      getFields e = getFields etc ∧
      getDescription e = getDescription etc) := by
  constructor
  · intro h
    rw [clone, if_pos h]
  · intro h
    have hok : clone etc newName =
        .ok (setDescription ⟨mkGraphQLEnumType { name := newName, values := objMapVals stripIsDeprecated (getFields etc) }⟩ (getDescription etc)) := by
      rw [clone, if_neg h]
    refine ⟨_, hok, rfl, rfl, ?_, rfl⟩
    rw [getFields_setDescription]
    show buildNameLookup (objMapVals stripIsDeprecated (getFields etc)) = _
    rw [buildNameLookup_strip, buildNameLookup_getFields hwf]

/-- C8 witness: cloning the sample composer under a fresh nonempty name. -/
theorem c8_clone_witness :
    WF sampleETC ∧
    (("" : String) = "" → clone sampleETC "" =
      .error "You should provide newTypeName:string for EnumTypeComposer.clone()") ∧
    (("ColorCopy" : String) ≠ "" → ∃ e, clone sampleETC "ColorCopy" = .ok e ∧
      getTypeName e = "ColorCopy" ∧
      e.gqType.enumConfig.values =
        objMapVals stripIsDeprecated (getFields sampleETC) ∧
      getFields e = getFields sampleETC ∧
      getDescription e = getDescription sampleETC) :=
  ⟨by decide, (c8_clone sampleETC "" (by decide)).1,
    (c8_clone sampleETC "ColorCopy" (by decide)).2⟩

end EnumTypeComposer
